import Mathlib

/-!
Shallow embedding of the `elmish-random-generators` library
(`src/elmish-random.ts`, reproduced in the repository README).

The TypeScript `Source<A>` is a zero-argument closure `() => A` over private
mutable state; here it becomes an explicit state transformer `σ → A × σ`.
TypeScript `number` is modelled as `ℚ` (exact arithmetic); the unit-interval
assumption on numeric sources becomes a hypothesis `0 ≤ u ∧ u < 1` on the
drawn value.  The `throw` in `getByWeight` is modelled by `Option`: `none` is
the thrown error, and generators built from fallible lookups produce
`Option A` values.
-/

namespace ElmishRandom

/-- A Source is a stateful producer of values of type `A`: the TS `() => A`
closure becomes an explicit state-passing function. -/
abbrev Source (σ A : Type) := σ → A × σ

/-- The TS internal `Transformer<A,B> = (a: A) => B`. -/
abbrev Transformer (A B : Type) := A → B

/-- A Generator wraps a Source; `next` invokes it.  The TS object built by
`generate` exposes `map`, `then` and `next`; `map` and `then` are defined
below on this structure. -/
structure Generator (σ A : Type) where
  next : Source σ A

/-- The private factory `generate` : wraps a Source as a Generator
(`obj.next = (): A => source()`). -/
def generate {σ A : Type} (source : Source σ A) : Generator σ A :=
  ⟨source⟩

/-- TS `obj.map = (transformer) => generate(() => transformer(source()))`:
call the original source once, apply the transformer to the drawn value. -/
def Generator.map {σ A B : Type} (g : Generator σ A) (transformer : Transformer A B) :
    Generator σ B :=
  generate fun s => (transformer (g.next s).1, (g.next s).2)

/-- TS `obj.then = (transformer) => generate(() => transformer(source()).next())`:
call the original source to get `a`, build the generator `transformer a`, and
immediately call its `next`. -/
def Generator.andThen {σ A B : Type} (g : Generator σ A)
    (transformer : Transformer A (Generator σ B)) : Generator σ B :=
  generate fun s => (transformer (g.next s).1).next (g.next s).2

/-- The TS `next` field is declared with no parameters
(`obj.next = (): A => source();`).  By JavaScript call semantics an argument
supplied at the call site (as in the doc example
`numbers.next(x => x + " Bottles of beer")`) is simply not bound to anything
and the body runs unchanged; `nextWith` embeds such a one-argument call. -/
def Generator.nextWith {σ A B : Type} (g : Generator σ A) (_transformer : Transformer A B) :
    Source σ A :=
  fun s => g.next s

/-- TS `constant = (value) => generate(() => value)`. -/
def constant {σ A : Type} (value : A) : Generator σ A :=
  generate fun s => (value, s)

/-- TS `float = (min, max, source) => generate(source).map(f => min + (max - min) * f)`. -/
def float {σ : Type} (min max : ℚ) (source : Source σ ℚ) : Generator σ ℚ :=
  (generate source).map fun f => min + (max - min) * f

/-- TS `toPrecision = (precision) => (x) => { const power = 10 ** precision;
return Math.floor(x * power) / power; }`.  The precision argument is a
non-negative integer in every use covered by the spec, so it is a `ℕ` here. -/
def toPrecision (precision : ℕ) (x : ℚ) : ℚ :=
  (⌊x * 10 ^ precision⌋ : ℚ) / 10 ^ precision

/-- TS `floatWithPrecision = (min, max, precision, source) =>
float(min, max, source).map(toPrecision(precision))`. -/
def floatWithPrecision {σ : Type} (min max : ℚ) (precision : ℕ)
    (source : Source σ ℚ) : Generator σ ℚ :=
  (float min max source).map (toPrecision precision)

/-- TS `int = (min, max, source) => floatWithPrecision(min, max + 1, 0, source)`. -/
def int {σ : Type} (min max : ℚ) (source : Source σ ℚ) : Generator σ ℚ :=
  floatWithPrecision min (max + 1) 0 source

/-- TS `boolean = (source) => generate(source).map(f => f > .5)`. -/
def boolean {σ : Type} (source : Source σ ℚ) : Generator σ Bool :=
  (generate source).map fun f => decide ((0.5 : ℚ) < f)

/-- JavaScript array indexing `[first, ...rest][i]` with a `number` index:
an integral in-range index yields the element, anything else yields
`undefined`, modelled as `none`. -/
def arrayGet {A : Type} (l : List A) (q : ℚ) : Option A :=
  if q.den = 1 ∧ 0 ≤ q.num then l.get? q.num.toNat else none

/-- TS `uniform = (first, rest, source) => rest.length === 0 ? constant(first)
: int(0, rest.length, source).map(i => [first, ...rest][i])`.  The indexing
may in principle miss (JS `undefined`), so the value type is `Option A`; the
degenerate branch `constant(first)` always succeeds and is `constant (some first)`. -/
def uniform {σ A : Type} (first : A) (rest : List A) (source : Source σ ℚ) :
    Generator σ (Option A) :=
  if rest.length = 0 then constant (some first)
  else (int 0 (rest.length : ℚ) source).map fun i => arrayGet (first :: rest) i

/-- TS `const sum = rest.reduce((acc, pair) => acc + pair[1], first[1])`
inside `weighted`. -/
def weightedSum {A : Type} (first : A × ℚ) (rest : List (A × ℚ)) : ℚ :=
  rest.foldl (fun acc pair => acc + pair.2) first.2

/-- TS `continiousSum = (source, target = [], i = 0, sum = 0) =>
i === source.length ? target
: continiousSum(source, [...target, [source[i][0], source[i][1] + sum]], i + 1, sum + source[i][1])`.
The TS guard `i === source.length` is rendered as the bounds check
`i < source.length` (for `i > source.length` the TS code dereferences
`undefined` and crashes; all calls start at `i = 0`, so the two agree on
every reachable input). -/
def continiousSum {A : Type} (source : List (A × ℚ)) (target : List (A × ℚ))
    (i : ℕ) (sum : ℚ) : List (A × ℚ) :=
  if h : i < source.length then
    continiousSum source (target ++ [((source.get ⟨i, h⟩).1, (source.get ⟨i, h⟩).2 + sum)])
      (i + 1) (sum + (source.get ⟨i, h⟩).2)
  else target
termination_by source.length - i

/-- TS `getByWeight = (source, weight, i = 0) => { if (i < source.length) {
return weight <= source[i][1] ? source[i][0] : getByWeight(source, weight, i + 1); }
else { throw new Error("Uhhh... bad!!!!"); } }`.  The thrown error is `none`. -/
def getByWeight {A : Type} (source : List (A × ℚ)) (weight : ℚ) (i : ℕ) : Option A :=
  if h : i < source.length then
    if weight ≤ (source.get ⟨i, h⟩).2 then some (source.get ⟨i, h⟩).1
    else getByWeight source weight (i + 1)
  else none
termination_by source.length - i

/-- TS `weighted`: empty `rest` degenerates to `constant(first[0])`; otherwise
total the weights, build the cumulative list with `continiousSum`, draw
`float(0, sum)` and select with `getByWeight`.  The selection may throw
(`none`), so the value type is `Option A`. -/
def weighted {σ A : Type} (first : A × ℚ) (rest : List (A × ℚ))
    (source : Source σ ℚ) : Generator σ (Option A) :=
  if rest.length = 0 then constant (some first.1)
  else
    (float 0 (weightedSum first rest) source).map fun x =>
      getByWeight (continiousSum (first :: rest) [] 0 0) x 0

/-- TS `pair = (leftGenerator, rightGenerator) =>
generate(() => [leftGenerator.next(), rightGenerator.next()])`: the left
generator is consulted first (order matters for stateful sources). -/
def pair {σ A B : Type} (leftGenerator : Generator σ A) (rightGenerator : Generator σ B) :
    Generator σ (A × B) :=
  generate fun s =>
    ((( leftGenerator.next s).1, (rightGenerator.next (leftGenerator.next s).2).1),
      (rightGenerator.next (leftGenerator.next s).2).2)

/-- The body of TS `list`: `for (let i = 0; i < len; i += 1) result[i] = generator.next()`.
`listSource gen n s` performs `n` calls of `gen.next` in ascending index
order, threading the state; element `i` of the result is the value of call `i`. -/
def listSource {σ A : Type} (gen : Generator σ A) : ℕ → σ → List A × σ
  | 0, s => ([], s)
  | n + 1, s =>
    ((gen.next s).1 :: (listSource gen n (gen.next s).2).1,
      (listSource gen n (gen.next s).2).2)

/-- TS `list = (len, generator) => generate(() => { ... for loop ... })`.
The TS `len: number` is used only as a loop bound; the spec restricts it to
non-negative integers, so it is a `ℕ` here. -/
def list {σ A : Type} (len : ℕ) (generator : Generator σ A) : Generator σ (List A) :=
  generate fun s => listSource generator len s

/-- A concrete deterministic stream source for witnesses: the state is the
list of unit-interval draws still to come (an exhausted stream keeps
returning `0`). -/
def streamSource : Source (List ℚ) ℚ :=
  fun s =>
    match s with
    | [] => (0, [])
    | u :: us => (u, us)

/-- Modelled from the spec: the character count of the standard decimal
notation (shortest form, trailing fractional zeros trimmed) of the
non-negative rational `k / 10 ^ p`.  Number-to-string conversion is host
JavaScript behavior, not part of the library source; the spec describes the
printed form as sign/leading digit, decimal point and at most `p` fractional
digits.  `k / 10 ^ p` with a trailing zero in `k` prints as
`(k/10) / 10 ^ (p-1)`; with `p = 0` it prints as the integer `k`; otherwise
as integer part, point, and exactly `p` fractional digits. -/
def decimalLength : ℕ → ℕ → ℕ
  | k, 0 => (toString k).length
  | k, p + 1 =>
    if k % 10 = 0 then decimalLength (k / 10) p
    else (toString (k / 10 ^ (p + 1))).length + 1 + (p + 1)

/-- The fixed string produced by `constant` in the spec's `list` example. -/
def xValue : String := "X"

/-- Total of the weights of a weighted-candidate list. -/
def weightTotal {A : Type} (l : List (A × ℚ)) : ℚ :=
  (l.map Prod.snd).sum

/-- The cumulative-weight list as the spec describes it, for comparison with
`continiousSum`: the running cumulative sum of the weights in list order, as
a parallel list of (value, cumulative-weight-so-far-inclusive) pairs. -/
def cumulativeSpec {A : Type} : List (A × ℚ) → ℚ → List (A × ℚ)
  | [], _ => []
  | p :: t, acc => (p.1, p.2 + acc) :: cumulativeSpec t (acc + p.2)

end ElmishRandom

namespace ElmishRandom

/-- C1: `map` applies the transformer to the value drawn from the underlying
source (same draw, same resulting state), mapping with the identity is the
original generator, and two maps compose: `g.map f |>.map h = g.map (h ∘ f)`. -/
theorem map_functor_spec {σ A : Type} (g : Generator σ A) :
    (∀ (B : Type) (f : Transformer A B) (s : σ),
        (g.map f).next s = (f (g.next s).1, (g.next s).2))
    ∧ g.map id = g
    ∧ (∀ (B C : Type) (f : Transformer A B) (h : Transformer B C),
        (g.map f).map h = g.map (h ∘ f)) := by
  refine ⟨fun B f s => rfl, ?_, fun B C f h => rfl⟩
  cases g with
  | mk n => simp [Generator.map, generate]

/-- C2: `then` draws `a` from the original source, builds the generator
`f a`, and immediately returns that generator's `next` result on the
post-draw state. -/
theorem andThen_spec {σ A B : Type} (g : Generator σ A)
    (f : Transformer A (Generator σ B)) (s : σ) :
    (g.andThen f).next s = (f (g.next s).1).next (g.next s).2 := rfl

/-- C7: `float min max` produces exactly `min + (max - min) * u` for the
drawn `u`, and for `min ≤ max` and `u ∈ [0,1)` the sample lies in
`[min, max]`. -/
theorem float_spec (a b : ℚ) {σ : Type} (src : Source σ ℚ) (s : σ)
    (hab : a ≤ b) (h0 : 0 ≤ (src s).1) (h1 : (src s).1 < 1) :
    ((float a b src).next s = (a + (b - a) * (src s).1, (src s).2))
    ∧ a ≤ ((float a b src).next s).1 ∧ ((float a b src).next s).1 ≤ b := by
  refine ⟨rfl, ?_, ?_⟩
  · show a ≤ a + (b - a) * (src s).1
    nlinarith
  · show a + (b - a) * (src s).1 ≤ b
    nlinarith

/-- Witness for C7 at `a = 0`, `b = 10`, draw `1/2`. -/
theorem float_spec_witness :
    ((0 : ℚ) ≤ 10 ∧ 0 ≤ (streamSource [1/2]).1 ∧ (streamSource [1/2]).1 < 1)
    ∧ (((float 0 10 streamSource).next [1/2]
          = (0 + (10 - 0) * (streamSource [1/2]).1, (streamSource [1/2]).2))
        ∧ 0 ≤ ((float 0 10 streamSource).next [1/2]).1
        ∧ ((float 0 10 streamSource).next [1/2]).1 ≤ 10) :=
  ⟨⟨by norm_num, by norm_num [streamSource], by norm_num [streamSource]⟩,
    float_spec 0 10 streamSource [1/2] (by norm_num)
      (by norm_num [streamSource]) (by norm_num [streamSource])⟩

/-- C3: `int min max` is definitionally `floatWithPrecision min (max+1) 0`,
every output is `⌊min + (max+1-min) * u⌋` for the drawn `u`, and for integer
bounds `min ≤ max` and `u ∈ [0,1)` the output is an integer in the inclusive
range `[min, max]`. -/
theorem int_spec (lo hi : ℤ) {σ : Type} (src : Source σ ℚ) (s : σ)
    (hlh : lo ≤ hi) (h0 : 0 ≤ (src s).1) (h1 : (src s).1 < 1) :
    (∀ a b : ℚ, int a b src = floatWithPrecision a (b + 1) 0 src)
    ∧ ((int (lo : ℚ) (hi : ℚ) src).next s
        = ((⌊(lo : ℚ) + (((hi : ℚ) + 1) - (lo : ℚ)) * (src s).1⌋ : ℚ), (src s).2))
    ∧ ∃ k : ℤ, ((int (lo : ℚ) (hi : ℚ) src).next s).1 = (k : ℚ) ∧ lo ≤ k ∧ k ≤ hi := by
  have hc : (lo : ℚ) ≤ (hi : ℚ) := by exact_mod_cast hlh
  have hval : (int (lo : ℚ) (hi : ℚ) src).next s
      = ((⌊(lo : ℚ) + (((hi : ℚ) + 1) - (lo : ℚ)) * (src s).1⌋ : ℚ), (src s).2) := by
    simp [int, floatWithPrecision, float, Generator.map, generate, toPrecision]
  refine ⟨fun a b => rfl, hval, ⌊(lo : ℚ) + (((hi : ℚ) + 1) - (lo : ℚ)) * (src s).1⌋, ?_, ?_, ?_⟩
  · rw [hval]
  · rw [Int.le_floor]
    nlinarith
  · have hlt : ⌊(lo : ℚ) + (((hi : ℚ) + 1) - (lo : ℚ)) * (src s).1⌋ < hi + 1 := by
      rw [Int.floor_lt]
      push_cast
      nlinarith
    omega

/-- Witness for C3 at `lo = 0`, `hi = 3`, draw `1/2` (output `2`). -/
theorem int_spec_witness :
    ((0 : ℤ) ≤ 3 ∧ 0 ≤ (streamSource [1/2]).1 ∧ (streamSource [1/2]).1 < 1)
    ∧ ((∀ a b : ℚ, int a b streamSource = floatWithPrecision a (b + 1) 0 streamSource)
        ∧ ((int ((0 : ℤ) : ℚ) ((3 : ℤ) : ℚ) streamSource).next [1/2]
            = ((⌊((0 : ℤ) : ℚ) + ((((3 : ℤ) : ℚ) + 1) - ((0 : ℤ) : ℚ)) * (streamSource [1/2]).1⌋ : ℚ),
                (streamSource [1/2]).2))
        ∧ ∃ k : ℤ, ((int ((0 : ℤ) : ℚ) ((3 : ℤ) : ℚ) streamSource).next [1/2]).1 = (k : ℚ)
            ∧ (0 : ℤ) ≤ k ∧ k ≤ 3) :=
  ⟨⟨by norm_num, by norm_num [streamSource], by norm_num [streamSource]⟩,
    int_spec 0 3 streamSource [1/2] (by norm_num)
      (by norm_num [streamSource]) (by norm_num [streamSource])⟩

/-- C10: `next` is declared with no parameters, so a call with an argument
(the per-call transformer shown in the interface doc comment) ignores it and
returns exactly the untransformed drawn value of an argumentless call. -/
theorem nextWith_ignores_argument {σ A B : Type} (g : Generator σ A)
    (t : Transformer A B) (s : σ) :
    g.nextWith t s = g.next s := rfl

lemma listSource_length {σ A : Type} (gen : Generator σ A) :
    ∀ (n : ℕ) (s : σ), ((listSource gen n s).1).length = n := by
  intro n
  induction n with
  | zero => intro s; rfl
  | succ n ih => intro s; simp [listSource, ih]

/-- C8: `list n gen` calls `gen` exactly `n` times in ascending order:
`n = 0` yields the empty sequence with the state untouched, the output
always has length `n`, the first element of a `list (n+1)` draw is the first
call's value and the tail is the `list n` draw on the threaded state, and
`list 10 (constant xValue)` yields ten copies of the string `xValue`. -/
theorem list_spec {σ A : Type} (gen : Generator σ A) (s : σ) :
    ((list 0 gen).next s = ([], s))
    ∧ (∀ n : ℕ, (((list n gen).next s).1).length = n)
    ∧ (∀ n : ℕ, (list (n + 1) gen).next s
        = ((gen.next s).1 :: ((list n gen).next (gen.next s).2).1,
            ((list n gen).next (gen.next s).2).2))
    ∧ ((list 10 (constant xValue : Generator σ String)).next s).1
        = List.replicate 10 xValue := by
  exact ⟨rfl, fun n => listSource_length gen n s, fun n => rfl, rfl⟩

lemma decimalLength_le (p : ℕ) : ∀ k : ℕ, k < 10 ^ p → decimalLength k p ≤ p + 2 := by
  induction p with
  | zero =>
    intro k hk
    have hk0 : k = 0 := by simpa using Nat.lt_one_iff.mp (by simpa using hk)
    subst hk0
    decide
  | succ p ih =>
    intro k hk
    rw [decimalLength]
    split
    · have hdiv : k / 10 < 10 ^ p := by
        rw [Nat.div_lt_iff_lt_mul (by norm_num)]
        calc k < 10 ^ (p + 1) := hk
        _ = 10 ^ p * 10 := by rw [pow_succ]
      exact le_trans (ih _ hdiv) (by omega)
    · have h0 : k / 10 ^ (p + 1) = 0 := Nat.div_eq_of_lt hk
      rw [h0]
      have hlen : (toString (0 : ℕ)).length = 1 := by decide
      omega

/-- C9: for precision `p ≤ 14` and a draw `u ∈ [0,1)`,
`floatWithPrecision 0 1 p` produces `⌊u * 10^p⌋ / 10^p`, a rational `k/10^p`
with `k < 10^p`, whose standard decimal notation has at most `p + 2`
characters (leading digit, decimal point, at most `p` fractional digits). -/
theorem floatWithPrecision_length_spec (p : ℕ) {σ : Type} (src : Source σ ℚ)
    (s : σ) (_hp : p ≤ 14) (h0 : 0 ≤ (src s).1) (h1 : (src s).1 < 1) :
    ∃ k : ℕ, ((floatWithPrecision 0 1 p src).next s).1 = (k : ℚ) / 10 ^ p
      ∧ k < 10 ^ p ∧ decimalLength k p ≤ p + 2 := by
  have hpow : (0 : ℚ) < 10 ^ p := by positivity
  have hval : ((floatWithPrecision 0 1 p src).next s).1
      = (⌊(src s).1 * 10 ^ p⌋ : ℚ) / 10 ^ p := by
    simp [floatWithPrecision, float, Generator.map, generate, toPrecision]
  have hfl0 : 0 ≤ ⌊(src s).1 * 10 ^ p⌋ :=
    Int.floor_nonneg.mpr (mul_nonneg h0 (le_of_lt hpow))
  have hfl1 : ⌊(src s).1 * 10 ^ p⌋ < (10 : ℤ) ^ p := by
    rw [Int.floor_lt]
    push_cast
    nlinarith
  refine ⟨(⌊(src s).1 * 10 ^ p⌋).toNat, ?_, ?_, ?_⟩
  · rw [hval]
    congr 1
    exact_mod_cast (Int.toNat_of_nonneg hfl0).symm
  · have : ((10 : ℤ) ^ p) = ((10 ^ p : ℕ) : ℤ) := by push_cast; ring
    omega
  · apply decimalLength_le
    have : ((10 : ℤ) ^ p) = ((10 ^ p : ℕ) : ℤ) := by push_cast; ring
    omega

lemma int_next_eq {σ : Type} (a b : ℚ) (src : Source σ ℚ) (s : σ) :
    (int a b src).next s = ((⌊a + (b + 1 - a) * (src s).1⌋ : ℚ), (src s).2) := by
  simp [int, floatWithPrecision, float, Generator.map, generate, toPrecision]

lemma arrayGet_intCast_mem {A : Type} (first : A) (rest : List A) (k : ℤ)
    (hk0 : 0 ≤ k) (hk1 : k ≤ rest.length) :
    ∃ a, arrayGet (first :: rest) (k : ℚ) = some a ∧ a ∈ first :: rest := by
  have hden : ((k : ℚ)).den = 1 := Rat.den_intCast k
  have hnum : ((k : ℚ)).num = k := Rat.num_intCast k
  have hlt : k.toNat < (first :: rest).length := by
    simp only [List.length_cons]
    omega
  refine ⟨(first :: rest).get ⟨k.toNat, hlt⟩, ?_, List.get_mem _ _ _⟩
  rw [arrayGet, if_pos ⟨hden, hnum ▸ hk0⟩, hnum]
  exact List.get?_eq_get hlt

/-- C6: `uniform first rest` with empty `rest` is `constant first` (no draw);
otherwise it draws an integer index in `[0, rest.length]` inclusive via
`int 0 rest.length` and returns the element of `[first, ...rest]` at that
index; for a draw in `[0,1)` the result is always a member of
`[first, ...rest]`. -/
theorem uniform_spec {σ A : Type} (first : A) (rest : List A) (src : Source σ ℚ)
    (s : σ) (h0 : 0 ≤ (src s).1) (h1 : (src s).1 < 1) :
    (uniform first ([] : List A) src = constant (some first))
    ∧ (rest ≠ [] → (uniform first rest src).next s
        = (arrayGet (first :: rest) (((int 0 (rest.length : ℚ) src).next s).1),
            (src s).2))
    ∧ (rest ≠ [] → ∃ k : ℤ, ((int 0 (rest.length : ℚ) src).next s).1 = (k : ℚ)
        ∧ 0 ≤ k ∧ k ≤ rest.length)
    ∧ (∃ a, ((uniform first rest src).next s).1 = some a ∧ a ∈ first :: rest) := by
  have hidx : ∀ n : ℕ, ∃ k : ℤ, ((int 0 (n : ℚ) src).next s).1 = (k : ℚ)
      ∧ 0 ≤ k ∧ k ≤ n := by
    intro n
    rw [int_next_eq]
    refine ⟨⌊(0 : ℚ) + (((n : ℚ) + 1) - 0) * (src s).1⌋, rfl, ?_, ?_⟩
    · rw [Int.le_floor]
      push_cast
      nlinarith [Nat.cast_nonneg (α := ℚ) n]
    · have hlt : ⌊(0 : ℚ) + (((n : ℚ) + 1) - 0) * (src s).1⌋ < (n : ℤ) + 1 := by
        rw [Int.floor_lt]
        push_cast
        nlinarith [Nat.cast_nonneg (α := ℚ) n]
      omega
  refine ⟨rfl, ?_, fun _ => hidx rest.length, ?_⟩
  · intro hne
    have hlen : ¬ rest.length = 0 := by simpa using hne
    simp [uniform, hlen, Generator.map, generate, int_next_eq]
  · cases rest with
    | nil => exact ⟨first, rfl, by simp⟩
    | cons r t =>
      have hlen : ¬ (r :: t).length = 0 := by simp
      obtain ⟨k, hk, hk0, hk1⟩ := hidx (r :: t).length
      obtain ⟨a, ha, hmem⟩ := arrayGet_intCast_mem first (r :: t) k hk0 (by exact_mod_cast hk1)
      refine ⟨a, ?_, hmem⟩
      have hv : ((uniform first (r :: t) src).next s).1
          = arrayGet (first :: r :: t) (((int 0 ((r :: t).length : ℚ) src).next s).1) := by
        simp [uniform, hlen, Generator.map, generate]
      rw [hv, hk, ha]

/-- Witness for C6 at `first = 0`, `rest = [1, 2]`, draw `1/2` (index `1`,
value `1`). -/
theorem uniform_spec_witness :
    (0 ≤ (streamSource [1/2]).1 ∧ (streamSource [1/2]).1 < 1)
    ∧ ((uniform (0 : ℕ) ([] : List ℕ) streamSource = constant (some 0))
        ∧ (([1, 2] : List ℕ) ≠ [] → (uniform 0 [1, 2] streamSource).next [1/2]
            = (arrayGet [0, 1, 2] (((int 0 (([1, 2] : List ℕ).length : ℚ) streamSource).next [1/2]).1),
                (streamSource [1/2]).2))
        ∧ (([1, 2] : List ℕ) ≠ [] → ∃ k : ℤ,
            ((int 0 (([1, 2] : List ℕ).length : ℚ) streamSource).next [1/2]).1 = (k : ℚ)
            ∧ 0 ≤ k ∧ k ≤ ([1, 2] : List ℕ).length)
        ∧ (∃ a, ((uniform (0 : ℕ) [1, 2] streamSource).next [1/2]).1 = some a
            ∧ a ∈ [0, 1, 2])) :=
  ⟨⟨by norm_num [streamSource], by norm_num [streamSource]⟩,
    uniform_spec 0 [1, 2] streamSource [1/2]
      (by norm_num [streamSource]) (by norm_num [streamSource])⟩

lemma foldl_add_eq {A : Type} :
    ∀ (l : List (A × ℚ)) (init : ℚ),
      l.foldl (fun acc p => acc + p.2) init = init + weightTotal l := by
  intro l
  induction l with
  | nil => intro init; simp [weightTotal]
  | cons p t ih =>
    intro init
    simp only [List.foldl_cons, ih, weightTotal, List.map_cons, List.sum_cons]
    ring

lemma weightedSum_eq {A : Type} (first : A × ℚ) (rest : List (A × ℚ)) :
    weightedSum first rest = weightTotal (first :: rest) := by
  rw [weightedSum, foldl_add_eq]
  simp only [weightTotal, List.map_cons, List.sum_cons]

lemma continiousSum_eq {A : Type} (l : List (A × ℚ)) :
    ∀ (i : ℕ) (target : List (A × ℚ)) (sum : ℚ),
      continiousSum l target i sum = target ++ cumulativeSpec (l.drop i) sum := by
  suffices H : ∀ (fuel i : ℕ), l.length - i = fuel → ∀ (target : List (A × ℚ)) (sum : ℚ),
      continiousSum l target i sum = target ++ cumulativeSpec (l.drop i) sum from
    fun i target sum => H (l.length - i) i rfl target sum
  intro fuel
  induction fuel with
  | zero =>
    intro i hf target sum
    have hge : ¬ i < l.length := by omega
    rw [continiousSum, dif_neg hge, List.drop_eq_nil_of_le (by omega)]
    simp [cumulativeSpec]
  | succ fuel ih =>
    intro i hf target sum
    have hlt : i < l.length := by omega
    rw [continiousSum, dif_pos hlt, ih (i + 1) (by omega)]
    rw [List.drop_eq_getElem_cons hlt]
    simp [cumulativeSpec, List.append_assoc, List.get_eq_getElem]

lemma cumulativeSpec_fst {A : Type} :
    ∀ (l : List (A × ℚ)) (acc : ℚ),
      (cumulativeSpec l acc).map Prod.fst = l.map Prod.fst := by
  intro l
  induction l with
  | nil => intro acc; rfl
  | cons p t ih => intro acc; simp [cumulativeSpec, ih]

lemma cumulativeSpec_total_mem {A : Type} :
    ∀ (l : List (A × ℚ)) (acc : ℚ), l ≠ [] →
      ∃ p ∈ cumulativeSpec l acc, p.2 = weightTotal l + acc := by
  intro l
  induction l with
  | nil => intro acc h; exact absurd rfl h
  | cons q t ih =>
    intro acc h
    cases t with
    | nil =>
      refine ⟨(q.1, q.2 + acc), by simp [cumulativeSpec], ?_⟩
      simp [weightTotal]
    | cons r u =>
      obtain ⟨p, hp, hval⟩ := ih (acc + q.2) (by simp)
      refine ⟨p, show p ∈ (q.1, q.2 + acc) :: cumulativeSpec (r :: u) (acc + q.2) from
        List.mem_cons_of_mem _ hp, ?_⟩
      rw [hval]
      simp only [weightTotal, List.map_cons, List.sum_cons]
      ring

lemma getByWeight_shift {A : Type} (q : A × ℚ) (w : ℚ) :
    ∀ (t : List (A × ℚ)) (i : ℕ), getByWeight (q :: t) w (i + 1) = getByWeight t w i := by
  intro t
  suffices H : ∀ (fuel i : ℕ), t.length - i = fuel →
      getByWeight (q :: t) w (i + 1) = getByWeight t w i from fun i => H (t.length - i) i rfl
  intro fuel
  induction fuel with
  | zero =>
    intro i hf
    conv_lhs => rw [getByWeight]
    conv_rhs => rw [getByWeight]
    rw [dif_neg (show ¬ i + 1 < (q :: t).length by simp; omega),
      dif_neg (show ¬ i < t.length by omega)]
  | succ fuel ih =>
    intro i hf
    have hlt : i < t.length := by omega
    conv_lhs => rw [getByWeight]
    conv_rhs => rw [getByWeight]
    rw [dif_pos (show i + 1 < (q :: t).length by simp; omega), dif_pos hlt]
    rw [ih (i + 1) (by omega)]
    rfl

lemma getByWeight_cons {A : Type} (p : A × ℚ) (t : List (A × ℚ)) (w : ℚ) :
    getByWeight (p :: t) w 0 = if w ≤ p.2 then some p.1 else getByWeight t w 0 := by
  rw [getByWeight, dif_pos (by simp)]
  show (if w ≤ p.2 then some p.1 else getByWeight (p :: t) w 1) = _
  rw [getByWeight_shift]

lemma getByWeight_mem_fst {A : Type} (w : ℚ) :
    ∀ (l : List (A × ℚ)) (a : A), getByWeight l w 0 = some a → a ∈ l.map Prod.fst := by
  intro l
  induction l with
  | nil =>
    intro a h
    rw [getByWeight, dif_neg (by simp)] at h
    exact absurd h (by simp)
  | cons p t ih =>
    intro a h
    rw [getByWeight_cons] at h
    by_cases hw : w ≤ p.2
    · rw [if_pos hw] at h
      simp only [Option.some_inj] at h
      simp [h.symm]
    · rw [if_neg hw] at h
      simp only [List.map_cons, List.mem_cons]
      exact Or.inr (ih a h)

lemma getByWeight_isSome_of_mem {A : Type} (w : ℚ) :
    ∀ (l : List (A × ℚ)), (∃ p ∈ l, w ≤ p.2) → ∃ a, getByWeight l w 0 = some a := by
  intro l
  induction l with
  | nil => rintro ⟨p, hp, _⟩; simp at hp
  | cons q t ih =>
    rintro ⟨p, hp, hw⟩
    rw [getByWeight_cons]
    by_cases hq : w ≤ q.2
    · exact ⟨q.1, by rw [if_pos hq]⟩
    · rw [if_neg hq]
      apply ih
      rcases List.mem_cons.mp hp with hpq | hpt
      · exact absurd (hpq ▸ hw) hq
      · exact ⟨p, hpt, hw⟩

/-- C4: `weighted first rest` with empty `rest` is `constant first.1` (no
draw); otherwise `continiousSum` builds exactly the running cumulative-sum
list parallel to the supplied candidates, the generator draws
`totalWeight * u` (a value in `[0, totalWeight)` when the total is positive
and `u ∈ [0,1)`) and selects with `getByWeight`, the scan returning the
first candidate whose cumulative weight is at least the drawn value; every
value it returns is one of the supplied candidates. -/
theorem weighted_spec {σ A : Type} (first : A × ℚ) (rest : List (A × ℚ))
    (src : Source σ ℚ) (s : σ) (hne : rest ≠ [])
    (h0 : 0 ≤ (src s).1) (h1 : (src s).1 < 1) :
    (weighted first ([] : List (A × ℚ)) src = constant (some first.1))
    ∧ continiousSum (first :: rest) [] 0 0 = cumulativeSpec (first :: rest) 0
    ∧ ((weighted first rest src).next s
        = (getByWeight (continiousSum (first :: rest) [] 0 0)
            (weightedSum first rest * (src s).1) 0, (src s).2))
    ∧ (0 < weightedSum first rest →
        0 ≤ weightedSum first rest * (src s).1
        ∧ weightedSum first rest * (src s).1 < weightedSum first rest)
    ∧ (∀ a, ((weighted first rest src).next s).1 = some a
        → a ∈ (first :: rest).map Prod.fst) := by
  have hlen : ¬ rest.length = 0 := by simpa using hne
  have hcs : continiousSum (first :: rest) [] 0 0 = cumulativeSpec (first :: rest) 0 := by
    rw [continiousSum_eq]
    simp
  have hv : (weighted first rest src).next s
      = (getByWeight (continiousSum (first :: rest) [] 0 0)
          (weightedSum first rest * (src s).1) 0, (src s).2) := by
    simp [weighted, hlen, float, Generator.map, generate]
  refine ⟨rfl, hcs, hv, fun hpos => ⟨mul_nonneg (le_of_lt hpos) h0, by nlinarith⟩, ?_⟩
  intro a ha
  rw [hv] at ha
  have hmem := getByWeight_mem_fst _ _ _ ha
  rw [hcs, cumulativeSpec_fst] at hmem
  exact hmem

/-- Witness for C4 at `first = (0, 1)`, `rest = [(1, 2)]`, draw `1/2`. -/
theorem weighted_spec_witness :
    ((([(1, 2)] : List (ℕ × ℚ)) ≠ [] ∧ 0 ≤ (streamSource [1/2]).1
        ∧ (streamSource [1/2]).1 < 1)
      ∧ ((weighted ((0 : ℕ), (1 : ℚ)) ([] : List (ℕ × ℚ)) streamSource
            = constant (some 0))
          ∧ continiousSum [((0 : ℕ), (1 : ℚ)), (1, 2)] [] 0 0
              = cumulativeSpec [((0 : ℕ), (1 : ℚ)), (1, 2)] 0
          ∧ ((weighted ((0 : ℕ), (1 : ℚ)) [(1, 2)] streamSource).next [1/2]
              = (getByWeight (continiousSum [((0 : ℕ), (1 : ℚ)), (1, 2)] [] 0 0)
                  (weightedSum ((0 : ℕ), (1 : ℚ)) [(1, 2)] * (streamSource [1/2]).1) 0,
                  (streamSource [1/2]).2))
          ∧ (0 < weightedSum ((0 : ℕ), (1 : ℚ)) [(1, 2)] →
              0 ≤ weightedSum ((0 : ℕ), (1 : ℚ)) [(1, 2)] * (streamSource [1/2]).1
              ∧ weightedSum ((0 : ℕ), (1 : ℚ)) [(1, 2)] * (streamSource [1/2]).1
                  < weightedSum ((0 : ℕ), (1 : ℚ)) [(1, 2)])
          ∧ (∀ a, ((weighted ((0 : ℕ), (1 : ℚ)) [(1, 2)] streamSource).next [1/2]).1
                = some a
              → a ∈ ([((0 : ℕ), (1 : ℚ)), (1, 2)]).map Prod.fst))) :=
  ⟨⟨by simp, by norm_num [streamSource], by norm_num [streamSource]⟩,
    weighted_spec ((0 : ℕ), (1 : ℚ)) [(1, 2)] streamSource [1/2] (by simp)
      (by norm_num [streamSource]) (by norm_num [streamSource])⟩

/-- C5: with non-negative weights and a unit-interval draw the weighted
selection always finds a candidate (the thrown error is unreachable), and an
exhausted scan — one starting past the end of the cumulative list, only
reachable through violated preconditions — yields the error (`none`)
immediately instead of a value. -/
theorem weighted_no_error {σ A : Type} (first : A × ℚ) (rest : List (A × ℚ))
    (src : Source σ ℚ) (s : σ) (hw : ∀ p ∈ first :: rest, 0 ≤ p.2)
    (_h0 : 0 ≤ (src s).1) (h1 : (src s).1 < 1) :
    (∃ a, ((weighted first rest src).next s).1 = some a)
    ∧ (∀ (B : Type) (l : List (B × ℚ)) (w : ℚ) (i : ℕ),
        l.length ≤ i → getByWeight l w i = none) := by
  constructor
  · cases rest with
    | nil => exact ⟨first.1, rfl⟩
    | cons r t =>
      have hlen : ¬ (r :: t).length = 0 := by simp
      have htot : 0 ≤ weightedSum first (r :: t) := by
        rw [weightedSum_eq]
        apply List.sum_nonneg
        intro x hx
        obtain ⟨p, hp, hpx⟩ := List.mem_map.mp hx
        exact hpx ▸ hw p hp
      have hcs : continiousSum (first :: r :: t) [] 0 0
          = cumulativeSpec (first :: r :: t) 0 := by
        rw [continiousSum_eq]
        simp
      obtain ⟨p, hp, hval⟩ := cumulativeSpec_total_mem (first :: r :: t) 0 (by simp)
      have hdrawn : weightedSum first (r :: t) * (src s).1 ≤ p.2 := by
        rw [weightedSum_eq] at htot
        rw [hval, weightedSum_eq]
        have hmul := mul_le_of_le_one_right htot (le_of_lt h1)
        linarith
      obtain ⟨a, ha⟩ := getByWeight_isSome_of_mem _ _ ⟨p, hcs ▸ hp, hdrawn⟩
      refine ⟨a, ?_⟩
      have hv : ((weighted first (r :: t) src).next s).1
          = getByWeight (continiousSum (first :: r :: t) [] 0 0)
              (weightedSum first (r :: t) * (src s).1) 0 := by
        simp [weighted, hlen, float, Generator.map, generate]
      rw [hv]
      exact ha
  · intro B l w i h
    rw [getByWeight, dif_neg (by omega)]

/-- Witness for C5 at `first = (0, 1)`, `rest = [(1, 2)]`, draw `1/2`. -/
theorem weighted_no_error_witness :
    ((∀ p ∈ [((0 : ℕ), (1 : ℚ)), (1, 2)], 0 ≤ p.2)
        ∧ 0 ≤ (streamSource [1/2]).1 ∧ (streamSource [1/2]).1 < 1)
    ∧ ((∃ a, ((weighted ((0 : ℕ), (1 : ℚ)) [(1, 2)] streamSource).next [1/2]).1
          = some a)
        ∧ (∀ (B : Type) (l : List (B × ℚ)) (w : ℚ) (i : ℕ),
            l.length ≤ i → getByWeight l w i = none)) :=
  ⟨⟨by intro p hp; fin_cases hp <;> norm_num,
      by norm_num [streamSource], by norm_num [streamSource]⟩,
    weighted_no_error ((0 : ℕ), (1 : ℚ)) [(1, 2)] streamSource [1/2]
      (by intro p hp; fin_cases hp <;> norm_num)
      (by norm_num [streamSource]) (by norm_num [streamSource])⟩

/-- Witness for C9 at `p = 2`, draw `1/2` (output `0.5`, i.e. `50/100`). -/
theorem floatWithPrecision_length_spec_witness :
    ((2 : ℕ) ≤ 14 ∧ 0 ≤ (streamSource [1/2]).1 ∧ (streamSource [1/2]).1 < 1)
    ∧ ∃ k : ℕ, ((floatWithPrecision 0 1 2 streamSource).next [1/2]).1 = (k : ℚ) / 10 ^ 2
        ∧ k < 10 ^ 2 ∧ decimalLength k 2 ≤ 2 + 2 :=
  ⟨⟨by norm_num, by norm_num [streamSource], by norm_num [streamSource]⟩,
    floatWithPrecision_length_spec 2 streamSource [1/2] (by norm_num)
      (by norm_num [streamSource]) (by norm_num [streamSource])⟩

end ElmishRandom
